import Mathlib

/-!
Verification of the GitCherry operation engine (github.com/julianchen24/GitCherry).

Go strings are modelled as lists of characters (`GoString`); Go functions from
`cmd/gitcherry/main.go`, `internal/ops/{transfer,revert,restore}`,
`internal/logs` and `internal/git` are translated into executable Lean
definitions below, keeping the source control flow.  External subprocess
calls (the git binary, the interactive prompt, the editor) are abstracted as
oracle functions, and the observable side effects of a command invocation are
collected into an explicit effect trace.
-/

/-- GoString models a Go string as the list of its runes. -/
abbrev GoString := List Char

deriving instance DecidableEq for Except

/-- goIsSpace models unicode.IsSpace on the characters Go's strings.TrimSpace
and strings.Fields treat as whitespace (ASCII whitespace plus the two Latin-1
space characters U+0085 and U+00A0). -/
def goIsSpace (c : Char) : Bool :=
  c = ' ' || c = '\t' || c = '\n' || c = '\x0b' || c = '\x0c' || c = '\r' ||
    c.toNat = 0x85 || c.toNat = 0xa0

/-- trimSpace models strings.TrimSpace: drop leading and trailing whitespace. -/
def trimSpace (s : GoString) : GoString :=
  ((s.dropWhile goIsSpace).reverse.dropWhile goIsSpace).reverse

/-- fieldsAux is the worker for `fields`; `acc` holds the current word reversed. -/
def fieldsAux : GoString → GoString → List GoString
  | [], acc => if acc = [] then [] else [acc.reverse]
  | c :: rest, acc =>
      if goIsSpace c then
        if acc = [] then fieldsAux rest [] else acc.reverse :: fieldsAux rest []
      else fieldsAux rest (c :: acc)

/-- fields models strings.Fields: split around runs of whitespace. -/
def fields (s : GoString) : List GoString := fieldsAux s []

/-- splitOnDots models strings.Contains(s, "..") together with
strings.SplitN(s, "..", 2): it returns the pieces before and after the first
occurrence of the two-dot separator, or none when the separator is absent. -/
def splitOnDots : GoString → Option (GoString × GoString)
  | [] => none
  | c :: rest =>
      if c = '.' ∧ rest.head? = some '.' then some ([], rest.tail)
      else (splitOnDots rest).map (fun p => (c :: p.1, p.2))

/-- parseRangeSpec is translated from `parseRangeSpec` in
cmd/gitcherry/main.go: trim the input, reject the empty string, split an
`a..b` pair at the first two-dot separator rejecting empty endpoints, and
accept a bare reference only when `allowSingle` is set. -/
def parseRangeSpec (spec0 : GoString) (allowSingle : Bool) :
    Except GoString (GoString × GoString) :=
  let spec := trimSpace spec0
  if spec = [] then .error ("range must be provided").toList
  else
    match splitOnDots spec with
    | some (a, b) =>
        if a = [] ∨ b = [] then .error (("invalid range: ").toList ++ spec)
        else .ok (a, b)
    | none =>
        if !allowSingle then
          .error (("range must include the two-dot separator: ").toList ++ spec)
        else .ok (spec, spec)

/-- hexDigit gives the lowercase hexadecimal digit for n < 16, as used by
strconv's \x escapes. -/
def hexDigit (n : Nat) : Char :=
  if n < 10 then Char.ofNat ('0'.toNat + n) else Char.ofNat ('a'.toNat + (n - 10))

/-- quoteChar models how Go's %q verb (strconv.Quote) renders one character:
double quote and backslash are escaped, the named control escapes are used for
\a \b \t \n \v \f \r, other control characters and DEL use a \x hex escape,
and printable characters are emitted verbatim.  (Characters at or above
0x80 are emitted verbatim here; the development only applies goQuote to
ASCII inputs, where this model is exact.) -/
def quoteChar (c : Char) : GoString :=
  if c = '"' then ['\\', '"']
  else if c = '\\' then ['\\', '\\']
  else if c = '\x07' then ['\\', 'a']
  else if c = '\x08' then ['\\', 'b']
  else if c = '\t' then ['\\', 't']
  else if c = '\n' then ['\\', 'n']
  else if c = '\x0b' then ['\\', 'v']
  else if c = '\x0c' then ['\\', 'f']
  else if c = '\r' then ['\\', 'r']
  else if c.toNat < 0x20 ∨ c.toNat = 0x7f then
    ['\\', 'x', hexDigit (c.toNat / 16), hexDigit (c.toNat % 16)]
  else [c]

/-- goQuote models fmt.Sprintf("%q", s) for a Go string: a double-quoted
literal with every character rendered by `quoteChar`. -/
def goQuote (s : GoString) : GoString :=
  '"' :: (s.map quoteChar).flatten ++ ['"']

namespace transfer

/-- Plan is translated from `Plan` in internal/ops/transfer: checkout the
target, cherry-pick the inclusive range start^..end without committing, then
commit with the %q-quoted message. -/
def Plan (source target startHash endHash message : GoString) : List GoString :=
  let rangeSpec := startHash ++ '^' :: '.' :: '.' :: endHash
  [ ("git checkout ").toList ++ target,
    ("git cherry-pick --no-commit ").toList ++ rangeSpec,
    ("git commit -m ").toList ++ goQuote message ]

end transfer

namespace revert

/-- Plan is translated from `Plan` in internal/ops/revert/revert.go. -/
def Plan (source target startHash endHash message : GoString) : List GoString :=
  let rangeSpec := startHash ++ '^' :: '.' :: '.' :: endHash
  [ ("git checkout ").toList ++ target,
    ("git revert --no-commit ").toList ++ rangeSpec,
    ("git commit -m ").toList ++ goQuote message ]

end revert

namespace restore

/-- Plan is translated from `Plan` in internal/ops/restore: a single
branch-creation command, with no checkout step. -/
def Plan (branchName commitHash : GoString) : List GoString :=
  [("git branch ").toList ++ branchName ++ ' ' :: commitHash]

end restore

/-- splitCommandAux is the worker loop of `splitCommand` from
cmd/gitcherry/main.go.  `current` holds the token being built, reversed;
a double quote toggles `inQuotes` without being emitted, an unquoted space
flushes the token, and a backslash inside quotes makes the following
character literal.  (In Go a trailing backslash inside quotes appends a
backslash and the loop then ends with `inQuotes` still set, returning the
unterminated-quote error, which is what the final arm returns here.) -/
def splitCommandAux : GoString → List GoString → GoString → Bool →
    Except GoString (List GoString)
  | [], args, current, inQuotes =>
      if inQuotes then .error ("unterminated quote in command").toList
      else .ok (args ++ if current = [] then [] else [current.reverse])
  | c :: rest, args, current, inQuotes =>
      if c = '"' then splitCommandAux rest args current (!inQuotes)
      else if c = ' ' then
        if inQuotes then splitCommandAux rest args (c :: current) inQuotes
        else if current = [] then splitCommandAux rest args current inQuotes
        else splitCommandAux rest (args ++ [current.reverse]) [] inQuotes
      else if c = '\\' then
        if inQuotes then
          match rest with
          | c2 :: rest2 => splitCommandAux rest2 args (c2 :: current) inQuotes
          | [] => .error ("unterminated quote in command").toList
        else splitCommandAux rest args (c :: current) inQuotes
      else splitCommandAux rest args (c :: current) inQuotes

/-- splitCommand is translated from `splitCommand` in cmd/gitcherry/main.go. -/
def splitCommand (command : GoString) : Except GoString (List GoString) :=
  splitCommandAux command [] [] false

namespace logs

/-- UndoState models the persisted undo stack `undoState` of internal/logs:
an ordered history plus an integer position.  The entry type is a parameter
because the stack logic never inspects entries (the Go struct stores branch
names, head hashes and a timestamp). -/
structure UndoState (α : Type) where
  history : List α
  position : Nat
  deriving DecidableEq, Repr

/-- loadUndoStateLocked models the normalisation performed when the persisted
stack is loaded in internal/logs: a position outside [0, len(history)] is
reset to len(history).  The raw persisted position is an arbitrary integer. -/
def loadUndoStateLocked {α : Type} (history : List α) (position : Int) :
    UndoState α :=
  if position < 0 ∨ position > history.length then ⟨history, history.length⟩
  else ⟨history, position.toNat⟩

/-- PushUndo is translated from `PushUndo` in internal/logs: truncate the
history at the current position when it is shorter than the history, append
the new entry, and set the position to the new history length.  (The Go
function also fills a zero timestamp on the entry; timestamps are not part
of the stack logic and are elided from the entry type here.) -/
def PushUndo {α : Type} (s : UndoState α) (entry : α) : UndoState α :=
  let hist := if s.position < s.history.length
    then s.history.take s.position else s.history
  ⟨hist ++ [entry], (hist ++ [entry]).length⟩

/-- Undo is translated from `Undo` in internal/logs: when the position is
positive, decrement it and return the entry at the new position together with
the updated stack; otherwise report not-found.  An out-of-range index (which
cannot occur for a loaded state) is mapped to `none`. -/
def Undo {α : Type} (s : UndoState α) : Option (α × UndoState α) :=
  if s.position = 0 then none
  else s.history[s.position - 1]?.map
    (fun e => (e, ⟨s.history, s.position - 1⟩))

/-- Redo is translated from `Redo` in internal/logs: when the position is
below the history length, return the entry at the position and increment it. -/
def Redo {α : Type} (s : UndoState α) : Option (α × UndoState α) :=
  if s.history.length ≤ s.position then none
  else s.history[s.position]?.map
    (fun e => (e, ⟨s.history, s.position + 1⟩))

/-- WF is the documented stack invariant: 0 ≤ position ≤ len(history)
(the lower bound is implicit in the Nat position). -/
def WF {α : Type} (s : UndoState α) : Prop := s.position ≤ s.history.length

instance {α : Type} (s : UndoState α) : Decidable (WF s) := by
  unfold WF; infer_instance

/-- undoN performs n consecutive Undo calls, collecting the returned entries
in pop order, and fails if any call reports not-found. -/
def undoN {α : Type} : UndoState α → Nat → Option (List α × UndoState α)
  | s, 0 => some ([], s)
  | s, n + 1 =>
      match Undo s with
      | none => none
      | some (e, s') => (undoN s' n).map (fun r => (e :: r.1, r.2))

/-- redoN performs n consecutive Redo calls, collecting the returned entries
in replay order, and fails if any call reports not-found. -/
def redoN {α : Type} : UndoState α → Nat → Option (List α × UndoState α)
  | s, 0 => some ([], s)
  | s, n + 1 =>
      match Redo s with
      | none => none
      | some (e, s') => (redoN s' n).map (fun r => (e :: r.1, r.2))

end logs

/-- Commit is translated from `Commit` in internal/git/git.go. -/
structure Commit where
  hash : GoString
  author : GoString := []
  date : GoString := []
  message : GoString := []
  files : List GoString := []
  deriving DecidableEq, Repr

/-- Operation is translated from `Operation` in internal/logs (timestamp
elided: it is filled from the clock, not computed from the inputs). -/
structure Operation where
  source : GoString
  target : GoString
  startHash : GoString
  endHash : GoString
  message : GoString
  commands : List GoString
  deriving DecidableEq, Repr

/-- UndoEntry is translated from `UndoEntry` in internal/logs (timestamp
elided as for Operation). -/
structure UndoEntry where
  source : GoString
  target : GoString
  beforeHead : GoString
  afterHead : GoString
  deriving DecidableEq, Repr

/-- Effect records one observable side effect of a command invocation:
a git subprocess run with the given arguments, a patch-id fingerprint
computation (internal/git Runner.PatchID, which itself shells out to git),
a persisted operation record, a persisted undo push, or a line of output. -/
inductive Effect where
  | runGit (args : List GoString)
  | patchID (hash : GoString)
  | writeOperation (op : Operation)
  | pushUndo (entry : UndoEntry)
  | print (msg : GoString)
  deriving DecidableEq, Repr

/-- Gateway abstracts internal/git Runner.Run: arguments to the git binary
mapped to either captured stdout or an error carrying stderr. -/
def Gateway : Type := List GoString → Except GoString GoString

/-- collectCommitsForRange is translated from `collectCommitsForRange` in
cmd/gitcherry/main.go, with its two-iteration loop over
[start^..end, start..end] unrolled.  The first iteration continues to the
second on error or empty output; the second (last) iteration returns an
error when git rev-list fails, and otherwise prepends start when it is
missing.  The post-loop literal fallback to [start] / [start, end] is kept
from the source even though no loop exit leaves hashes empty.  The returned
trace lists the rev-list invocations that were attempted. -/
def collectCommitsForRange (gw : Gateway) (start end_ : GoString) :
    List Effect × Except GoString (List Commit) :=
  let spec0 := start ++ '^' :: '.' :: '.' :: end_
  let spec1 := start ++ '.' :: '.' :: end_
  let args0 := [("rev-list").toList, ("--reverse").toList, spec0]
  let args1 := [("rev-list").toList, ("--reverse").toList, spec1]
  let second : List Effect → List Effect × Except GoString (List GoString) :=
    fun effs =>
      match gw args1 with
      | .error stderr =>
          (effs ++ [.runGit args1],
           .error (("git rev-list failed: ").toList ++ trimSpace stderr))
      | .ok out =>
          let lines := fields (trimSpace out)
          let hashes :=
            if lines = [] ∨ lines.head? ≠ some start then start :: lines
            else lines
          (effs ++ [.runGit args1], .ok hashes)
  let first : List Effect × Except GoString (List GoString) :=
    match gw args0 with
    | .error _ => second [.runGit args0]
    | .ok out =>
        let lines := fields (trimSpace out)
        if lines = [] then second [.runGit args0]
        else ([.runGit args0], .ok lines)
  match first with
  | (effs, .error msg) => (effs, .error msg)
  | (effs, .ok hashes) =>
      let hashes :=
        if hashes = [] then
          if start = end_ then [start] else [start, end_]
        else hashes
      (effs, .ok (hashes.map (fun h => { hash := h })))

/-- DetectDuplicates is translated from `DetectDuplicates` in
internal/ops/transfer: return immediately on an empty candidate list, list
the commits reachable from the target with git log, build the set of their
patch-ids skipping any hash whose fingerprint fails or is empty, then keep
the candidates whose fingerprint succeeds, is non-empty and is in the set.
The patch-id oracle models Runner.PatchID; its invocations are traced. -/
def DetectDuplicates (gw : Gateway) (patchID : GoString → Except GoString GoString)
    (target : GoString) (commits : List Commit) :
    List Effect × Except GoString (List Commit) :=
  if commits = [] then ([], .ok [])
  else
    let logArgs := [("log").toList, ("--pretty=%H").toList, target]
    match gw logArgs with
    | .error stderr => ([.runGit logArgs], .error stderr)
    | .ok out =>
        let targetHashes := fields (trimSpace out)
        let patches := targetHashes.filterMap (fun h =>
          match patchID h with
          | .error _ => none
          | .ok pid => if pid = [] then none else some pid)
        let duplicates := commits.filter (fun c =>
          match patchID c.hash with
          | .error _ => false
          | .ok pid => if pid = [] then false else patches.contains pid)
        (.runGit logArgs :: targetHashes.map .patchID ++
           commits.map (fun c => .patchID c.hash),
         .ok duplicates)

/-- replaceAll models strings.ReplaceAll for a non-empty pattern: every
occurrence of `pat` in `s` is replaced by `rep`, scanning left to right.
(Go inserts `rep` between runes for an empty pattern; the callers below only
use non-empty literal patterns, for which this model is exact.) -/
def replaceAll (s pat rep : GoString) : GoString :=
  if h : pat = [] then s
  else
    match s with
    | [] => []
    | c :: rest =>
        if pat.isPrefixOf (c :: rest) then
          rep ++ replaceAll ((c :: rest).drop pat.length) pat rep
        else c :: replaceAll rest pat rep
termination_by s.length
decreasing_by
  · have hl : 0 < pat.length := List.length_pos.mpr h
    simp only [List.length_drop, List.length_cons]
    omega
  · simp

/-- renderTemplate is translated from `renderTemplate` in
cmd/gitcherry/main.go.  The Go code iterates a three-entry replacement map in
unspecified order; the replacements are applied here in a fixed order, which
agrees with every Go iteration order whenever the substituted values do not
themselves contain a placeholder. -/
def renderTemplate (template source target rangeSpec : GoString) : GoString :=
  replaceAll
    (replaceAll
      (replaceAll template ("\x7bsource\x7d").toList source)
      ("\x7btarget\x7d").toList target)
    ("\x7brange\x7d").toList rangeSpec

/-- Env bundles the external collaborators of a CLI command invocation:
the git gateway, the patch-id oracle, whether stdin is interactive, the
answer of the yes/no duplicate prompt, and the interactive message editor. -/
structure Env where
  gw : Gateway
  patchID : GoString → Except GoString GoString
  interactive : Bool
  promptAnswer : Except GoString Bool
  editOracle : GoString → Except GoString GoString

/-- handleDuplicateChoice is translated from `handleDuplicateChoice` in
cmd/gitcherry/main.go: skip prints and declines, apply proceeds silently,
ask declines when stdin is not a terminal and otherwise prompts; any other
mode is an error.  (Printed texts are abbreviated: the %d duplicate count and
example hash formatting are elided from the messages.) -/
def handleDuplicateChoice (env : Env) (mode : GoString) :
    List Effect × Except GoString Bool :=
  if mode = ("skip").toList then
    ([.print ("Detected duplicate patches; skipping.").toList], .ok false)
  else if mode = ("apply").toList then ([], .ok true)
  else if mode = ("ask").toList then
    if !env.interactive then
      ([.print ("Detected duplicate patches but cannot prompt; skipping.").toList],
       .ok false)
    else
      ([.print ("Apply anyway? [y/N]: ").toList], env.promptAnswer)
  else ([], .error (("unknown duplicate mode: ").toList ++ mode))

/-- resolveTransferMessage is translated from `resolveTransferMessage` in
cmd/gitcherry/main.go: an explicit message wins; otherwise the configured
template (or the built-in default) is rendered, returned directly under
--auto-message, and passed through the editor under --edit. -/
def resolveTransferMessage (env : Env) (template explicit : GoString)
    (edit auto : Bool) (source target rangeSpec : GoString) :
    Except GoString GoString :=
  if explicit ≠ [] then .ok explicit
  else
    let initial :=
      if template = [] then
        ("[Transfer] \x7bsource\x7d -> \x7btarget\x7d \x7brange\x7d").toList
      else template
    let message := renderTemplate initial source target rangeSpec
    if auto then .ok message
    else if edit then env.editOracle message
    else .ok message

/-- currentHead is translated from `currentHead` in cmd/gitcherry/main.go:
git rev-parse of the given ref, trimmed. -/
def currentHead (gw : Gateway) (ref : GoString) :
    List Effect × Except GoString GoString :=
  let args := [("rev-parse").toList, ref]
  match gw args with
  | .error stderr =>
      ([.runGit args],
       .error (("git rev-parse failed: ").toList ++ trimSpace stderr))
  | .ok out => ([.runGit args], .ok (trimSpace out))

/-- printPlan is translated from `printPlan` in cmd/gitcherry/main.go. -/
def printPlan (commands : List GoString) : List Effect :=
  if commands = [] then [.print ("No commands to execute.").toList]
  else .print ("Planned commands:").toList ::
    commands.map (fun c => .print (("  ").toList ++ c))

/-- runCommands is translated from `runCommands` in cmd/gitcherry/main.go:
each command string is split, must start with "git", and is run through the
gateway with its non-empty trimmed stdout echoed; the first failure stops the
loop with an error.  (Error message formatting is abbreviated.) -/
def runCommands (gw : Gateway) : List GoString → List Effect × Except GoString Unit
  | [] => ([], .ok ())
  | command :: rest =>
      match splitCommand command with
      | .error e => ([], .error e)
      | .ok [] => runCommands gw rest
      | .ok (a0 :: argsRest) =>
          if a0 ≠ ("git").toList then
            ([], .error (("unsupported command: ").toList ++ command))
          else
            match gw argsRest with
            | .error stderr =>
                ([.runGit argsRest],
                 .error (command ++ (" failed: ").toList ++ trimSpace stderr))
            | .ok out =>
                let printEffs :=
                  if trimSpace out = [] then []
                  else [Effect.print (trimSpace out)]
                let (effs, r) := runCommands gw rest
                (.runGit argsRest :: printEffs ++ effs, r)

/-- transferRun is translated from the RunE closure of `newTransferCmd` in
cmd/gitcherry/main.go: validate flags, parse the range, resolve the commit
list, detect duplicates and consult the duplicate policy, resolve the
message, build the plan, and either print it (dry run) or execute it and
persist the operation record and undo entry.  Store write failures
(filesystem errors in WriteOperation/PushUndo) are not modelled; the trace
records the writes. -/
def transferRun (env : Env) (msgTemplate mode0 : GoString) (apply : Bool)
    (flagFrom flagTo flagRange flagMessage : GoString)
    (flagEdit flagAuto : Bool) : List Effect × Except GoString Unit :=
  if flagFrom = [] ∨ flagTo = [] ∨ flagRange = [] then
    ([], .error ("--from, --to, and --range are required").toList)
  else
    match parseRangeSpec flagRange false with
    | .error e => ([], .error e)
    | .ok (startHash, endHash) =>
        if flagMessage ≠ [] ∧ (flagEdit ∨ flagAuto) then
          ([], .error ("--message cannot be combined with --edit or --auto-message").toList)
        else if flagEdit ∧ flagAuto then
          ([], .error ("--edit and --auto-message cannot be used together").toList)
        else
          let (effs1, rc) := collectCommitsForRange env.gw startHash endHash
          match rc with
          | .error e => (effs1, .error e)
          | .ok commits =>
              let mode := if mode0 = [] then ("ask").toList else mode0
              let cont : Unit → List Effect × Except GoString Unit := fun _ =>
                let rangeSpec := startHash ++ '.' :: '.' :: endHash
                match resolveTransferMessage env msgTemplate flagMessage
                    flagEdit flagAuto flagFrom flagTo rangeSpec with
                | .error e => ([], .error e)
                | .ok message =>
                    let commands :=
                      transfer.Plan flagFrom flagTo startHash endHash message
                    if !apply then (printPlan commands, .ok ())
                    else
                      match currentHead env.gw flagTo with
                      | (ehb, .error e) => (ehb, .error e)
                      | (ehb, .ok beforeHead) =>
                          let (effr, rr) := runCommands env.gw commands
                          match rr with
                          | .error e => (ehb ++ effr, .error e)
                          | .ok _ =>
                              match currentHead env.gw flagTo with
                              | (eha, .error e) => (ehb ++ effr ++ eha, .error e)
                              | (eha, .ok afterHead) =>
                                  let op : Operation :=
                                    ⟨flagFrom, flagTo, startHash, endHash,
                                     message, commands⟩
                                  let undo : UndoEntry :=
                                    ⟨flagTo, flagTo, beforeHead, afterHead⟩
                                  (ehb ++ effr ++ eha ++
                                     [.writeOperation op, .pushUndo undo,
                                      .print ("Transfer applied successfully.").toList],
                                   .ok ())
              if commits ≠ [] then
                let (effs2, rd) := DetectDuplicates env.gw env.patchID flagTo commits
                match rd with
                | .error e => (effs1 ++ effs2, .error e)
                | .ok dups =>
                    if dups ≠ [] then
                      let (effs3, rp) := handleDuplicateChoice env mode
                      match rp with
                      | .error e => (effs1 ++ effs2 ++ effs3, .error e)
                      | .ok proceed =>
                          if !proceed then
                            (effs1 ++ effs2 ++ effs3 ++
                               [.print ("Skipping transfer due to duplicate patches.").toList],
                             .ok ())
                          else
                            let (effs4, r) := cont ()
                            (effs1 ++ effs2 ++ effs3 ++ effs4, r)
                    else
                      let (effs4, r) := cont ()
                      (effs1 ++ effs2 ++ effs4, r)
              else
                let (effs4, r) := cont ()
                (effs1 ++ effs4, r)

/-- revertExecute is translated from `Execute` in internal/ops/revert:
checkout, revert --no-commit over the inclusive range, then commit.
(Error message formatting is abbreviated.) -/
def revertExecute (gw : Gateway) (target startHash endHash message : GoString) :
    List Effect × Except GoString Unit :=
  let a1 := [("checkout").toList, target]
  match gw a1 with
  | .error _ => ([.runGit a1], .error ("git checkout failed").toList)
  | .ok _ =>
      let rangeSpec := startHash ++ '^' :: '.' :: '.' :: endHash
      let a2 := [("revert").toList, ("--no-commit").toList, rangeSpec]
      match gw a2 with
      | .error _ =>
          ([.runGit a1, .runGit a2],
           .error ("git revert --no-commit failed; resolve conflicts manually").toList)
      | .ok _ =>
          let a3 := [("commit").toList, ("-m").toList, message]
          match gw a3 with
          | .error _ =>
              ([.runGit a1, .runGit a2, .runGit a3],
               .error ("git commit failed").toList)
          | .ok _ => ([.runGit a1, .runGit a2, .runGit a3], .ok ())

/-- revertRun is translated from the RunE closure of `newRevertCmd` in
cmd/gitcherry/main.go. -/
def revertRun (env : Env) (apply : Bool)
    (flagOn flagRange flagMessage : GoString) :
    List Effect × Except GoString Unit :=
  if flagOn = [] then ([], .error ("--on is required").toList)
  else if flagRange = [] then ([], .error ("--range is required").toList)
  else
    match parseRangeSpec flagRange true with
    | .error e => ([], .error e)
    | .ok (startHash, endHash) =>
        let message :=
          if flagMessage = [] then
            ("Revert ").toList ++ flagRange ++ (" on ").toList ++ flagOn
          else flagMessage
        let commands := revert.Plan flagOn flagOn startHash endHash message
        if !apply then (printPlan commands, .ok ())
        else
          match currentHead env.gw flagOn with
          | (ehb, .error e) => (ehb, .error e)
          | (ehb, .ok beforeHead) =>
              let (effx, rx) := revertExecute env.gw flagOn startHash endHash message
              match rx with
              | .error e => (ehb ++ effx, .error e)
              | .ok _ =>
                  match currentHead env.gw flagOn with
                  | (eha, .error e) => (ehb ++ effx ++ eha, .error e)
                  | (eha, .ok afterHead) =>
                      let op : Operation :=
                        ⟨flagOn, flagOn, startHash, endHash, message, commands⟩
                      let undo : UndoEntry :=
                        ⟨flagOn, flagOn, beforeHead, afterHead⟩
                      (ehb ++ effx ++ eha ++
                         [.writeOperation op, .pushUndo undo,
                          .print ("Revert applied successfully.").toList],
                       .ok ())

/-- restoreExecute is translated from `Execute` in internal/ops/restore:
create the branch, then persist the operation record and the undo entry.
(The in-memory audit log entry has no external effect and is elided.) -/
def restoreExecute (gw : Gateway) (branchName commitHash : GoString) :
    List Effect × Except GoString Unit :=
  let a1 := [("branch").toList, branchName, commitHash]
  match gw a1 with
  | .error _ => ([.runGit a1], .error ("git branch failed").toList)
  | .ok _ =>
      let plan := restore.Plan branchName commitHash
      let op : Operation :=
        ⟨branchName, branchName, commitHash, commitHash,
         ("Restore branch ").toList ++ branchName ++ (" at ").toList ++ commitHash,
         plan⟩
      let undo : UndoEntry := ⟨branchName, [], [], commitHash⟩
      ([.runGit a1, .writeOperation op, .pushUndo undo], .ok ())

/-- restoreRun is translated from the RunE closure of `newRestoreCmd` in
cmd/gitcherry/main.go. -/
def restoreRun (env : Env) (apply : Bool) (flagCommit flagBranch : GoString) :
    List Effect × Except GoString Unit :=
  if flagCommit = [] ∨ flagBranch = [] then
    ([], .error ("--at and --branch-name are required").toList)
  else
    let commands := restore.Plan flagBranch flagCommit
    if !apply then (printPlan commands, .ok ())
    else
      let (effs, r) := restoreExecute env.gw flagBranch flagCommit
      match r with
      | .error e => (effs, .error e)
      | .ok _ =>
          (effs ++ [.print ("Restore completed successfully.").toList], .ok ())

/-- isError reports whether an Except value is an error. -/
def isError {ε α : Type} : Except ε α → Bool
  | .error _ => true
  | .ok _ => false

/-- verbatimChar recognises the characters that Go's %q verb emits verbatim:
printable ASCII other than the double quote and the backslash. -/
def verbatimChar (c : Char) : Bool :=
  0x20 ≤ c.toNat && c.toNat ≤ 0x7e && c ≠ '"' && c ≠ '\\'

/-- dryRunSafe holds for the effects a dry run may produce: printed output,
fingerprint computations, and read-only git queries (rev-list, log) — but
never an executed plan command (checkout, cherry-pick, revert, commit,
branch), a persisted operation record, or an undo push. -/
def dryRunSafe : Effect → Prop
  | .runGit args => args.head? = some ("rev-list").toList ∨
      args.head? = some ("log").toList
  | .patchID _ => True
  | .writeOperation _ => False
  | .pushUndo _ => False
  | .print _ => True

/-- dryRunEnv is a concrete collaborator environment whose git gateway always
answers with one commit hash and whose fingerprint oracle always succeeds. -/
def dryRunEnv : Env where
  gw := fun _ => .ok ("deadbeef").toList
  patchID := fun _ => .ok ("p1").toList
  interactive := false
  promptAnswer := .ok false
  editOracle := fun m => .ok m


theorem quoteChar_verbatim {c : Char} (h : verbatimChar c = true) :
    quoteChar c = [c] := by
  have h' : (0x20 ≤ c.toNat ∧ c.toNat ≤ 0x7e) ∧ c ≠ '"' ∧ c ≠ '\\' := by
    simpa [verbatimChar, Bool.and_eq_true, and_assoc, decide_eq_true_eq] using h
  obtain ⟨⟨hlo, hhi⟩, hq, hb⟩ := h'
  unfold quoteChar
  rw [if_neg hq, if_neg hb]
  rw [if_neg (show ¬c = '\x07' by intro g; subst g; revert hlo; decide)]
  rw [if_neg (show ¬c = '\x08' by intro g; subst g; revert hlo; decide)]
  rw [if_neg (show ¬c = '\t' by intro g; subst g; revert hlo; decide)]
  rw [if_neg (show ¬c = '\n' by intro g; subst g; revert hlo; decide)]
  rw [if_neg (show ¬c = '\x0b' by intro g; subst g; revert hlo; decide)]
  rw [if_neg (show ¬c = '\x0c' by intro g; subst g; revert hlo; decide)]
  rw [if_neg (show ¬c = '\r' by intro g; subst g; revert hlo; decide)]
  rw [if_neg (show ¬(c.toNat < 0x20 ∨ c.toNat = 0x7f) by rintro (g | g) <;> omega)]

theorem goQuote_verbatim {s : GoString} (h : ∀ c ∈ s, verbatimChar c = true) :
    goQuote s = '"' :: s ++ ['"'] := by
  unfold goQuote
  have : (s.map quoteChar).flatten = s := by
    induction s with
    | nil => simp
    | cons a t ih =>
        simp only [List.map_cons, List.flatten_cons,
          quoteChar_verbatim (h a (by simp)), List.singleton_append, List.cons_inj_right]
        exact ih (fun c hc => h c (by simp [hc]))
  rw [this]

/-- C1 counterexample: for the message consisting of a single double quote,
the third transfer command is git commit -m followed by the %q rendering
with an escaping backslash, not the verbatim template
git commit -m with the message between bare quotes as the claim states. -/
theorem c1_plan_template_counterexample :
    transfer.Plan ("main").toList ("feature").toList ("abc").toList
        ("def").toList ['"'] ≠
      [("git checkout feature").toList,
       ("git cherry-pick --no-commit abc^..def").toList,
       ("git commit -m ").toList ++ '"' :: '"' :: '"' :: []] := by decide

/-- C1 (amended): for every message made of printable ASCII characters other
than double quote and backslash, the transfer and revert plans are exactly
the three claimed command strings with the quoted message, and the restore
plan is exactly the single branch-creation command for all inputs. -/
theorem c1_plan_templates :
    (∀ source target startHash endHash message : GoString,
      (∀ c ∈ message, verbatimChar c = true) →
      transfer.Plan source target startHash endHash message =
        [("git checkout ").toList ++ target,
         ("git cherry-pick --no-commit ").toList ++
           startHash ++ '^' :: '.' :: '.' :: endHash,
         ("git commit -m \"").toList ++ message ++ ['"']] ∧
      revert.Plan source target startHash endHash message =
        [("git checkout ").toList ++ target,
         ("git revert --no-commit ").toList ++
           startHash ++ '^' :: '.' :: '.' :: endHash,
         ("git commit -m \"").toList ++ message ++ ['"']]) ∧
    (∀ branchName commitHash : GoString,
      restore.Plan branchName commitHash =
        [("git branch ").toList ++ branchName ++ ' ' :: commitHash]) := by
  refine ⟨fun source target startHash endHash message hm => ?_, fun _ _ => rfl⟩
  have hq : goQuote message = '"' :: message ++ ['"'] := goQuote_verbatim hm
  have hsplit : ("git commit -m \"").toList =
      ("git commit -m ").toList ++ ['"'] := by decide
  constructor <;>
    simp [transfer.Plan, revert.Plan, hq, hsplit, List.append_assoc]

/-- C1 witness: the amended template theorem evaluated on the hotfix
scenario from the specification. -/
theorem c1_plan_templates_witness :
    transfer.Plan ("main").toList ("release").toList ("a1b2c3").toList
        ("d4e5f6").toList ("hotfix").toList =
      [("git checkout ").toList ++ ("release").toList,
       ("git cherry-pick --no-commit ").toList ++
         ("a1b2c3").toList ++ '^' :: '.' :: '.' :: ("d4e5f6").toList,
       ("git commit -m \"").toList ++ ("hotfix").toList ++ ['"']] :=
  (c1_plan_templates.1 ("main").toList ("release").toList ("a1b2c3").toList
    ("d4e5f6").toList ("hotfix").toList (by decide)).1

/-- C9: the Plan Builder is deterministic — for each operation kind, two
calls with identical inputs return identical command lists (the builders are
pure functions of their arguments). -/
theorem c9_plan_deterministic :
    (∀ source target startHash endHash message : GoString,
      transfer.Plan source target startHash endHash message =
        transfer.Plan source target startHash endHash message ∧
      revert.Plan source target startHash endHash message =
        revert.Plan source target startHash endHash message) ∧
    (∀ branchName commitHash : GoString,
      restore.Plan branchName commitHash =
        restore.Plan branchName commitHash) :=
  ⟨fun _ _ _ _ _ => ⟨rfl, rfl⟩, fun _ _ => rfl⟩

theorem splitOnDots_append (bs : GoString) :
    ∀ a : GoString, splitOnDots a = none → a.getLast? ≠ some '.' →
      splitOnDots (a ++ '.' :: '.' :: bs) = some (a, bs) := by
  intro a
  induction a with
  | nil => intro _ _; simp [splitOnDots]
  | cons c a' ih =>
      intro h1 h2
      have hcond1 : ¬(c = '.' ∧ a'.head? = some '.') := by
        intro hc
        unfold splitOnDots at h1
        rw [if_pos hc] at h1
        exact Option.noConfusion h1
      have hnone : splitOnDots a' = none := by
        unfold splitOnDots at h1
        rw [if_neg hcond1] at h1
        exact Option.map_eq_none'.mp h1
      cases a' with
      | nil =>
          have hcdot : c ≠ '.' := by
            intro g; exact h2 (by simp [g])
          have hbase : splitOnDots ('.' :: '.' :: bs) = some ([], bs) := by
            simp [splitOnDots]
          rw [List.cons_append, List.nil_append]
          unfold splitOnDots
          rw [if_neg (by simp [hcdot]), hbase]
          rfl
      | cons d a'' =>
          have hlast : (d :: a'').getLast? ≠ some '.' := by
            intro g; exact h2 (by rw [List.getLast?_cons_cons]; exact g)
          have hrec := ih hnone hlast
          rw [List.cons_append]
          unfold splitOnDots
          rw [if_neg (by simpa using hcond1), hrec]
          rfl

/-- C6: the range parser fails exactly on malformed input — the trimmed
empty string, a two-dot separator with an empty endpoint (including the
bare separator), and a bare reference when single-reference mode is
disallowed — and succeeds with the expected pair otherwise.  A string of
the form a..b is read canonically: the endpoints are the pieces around the
first two-dot separator (the hypotheses that `a` contains no separator and
does not end in a dot say exactly that `a ++ ".." ++ b` decomposes there). -/
theorem c6_parseRangeSpec_spec :
    (∀ (s : GoString) (allowSingle : Bool), trimSpace s = [] →
      isError (parseRangeSpec s allowSingle) = true) ∧
    (∀ (s : GoString) (allowSingle : Bool) (a b : GoString),
      splitOnDots (trimSpace s) = some (a, b) → (a = [] ∨ b = []) →
      isError (parseRangeSpec s allowSingle) = true) ∧
    (∀ s : GoString, trimSpace s ≠ [] → splitOnDots (trimSpace s) = none →
      isError (parseRangeSpec s false) = true) ∧
    (∀ (a b : GoString) (allowSingle : Bool), a ≠ [] → b ≠ [] →
      splitOnDots a = none → a.getLast? ≠ some '.' →
      trimSpace (a ++ '.' :: '.' :: b) = a ++ '.' :: '.' :: b →
      parseRangeSpec (a ++ '.' :: '.' :: b) allowSingle = .ok (a, b)) ∧
    (∀ a : GoString, a ≠ [] → splitOnDots a = none → trimSpace a = a →
      parseRangeSpec a true = .ok (a, a)) := by
  refine ⟨?_, ?_, ?_, ?_, ?_⟩
  · intro s allowSingle h
    simp [parseRangeSpec, h, isError]
  · intro s allowSingle a b h hab
    have hne : trimSpace s ≠ [] := by
      intro g; rw [g] at h; simp [splitOnDots] at h
    rcases hab with hab | hab <;>
      simp [parseRangeSpec, hne, h, hab, isError]
  · intro s hne h
    simp [parseRangeSpec, hne, h, isError]
  · intro a b allowSingle ha hb hnone hlast htrim
    have hsplit := splitOnDots_append b a hnone hlast
    have hne : a ++ '.' :: '.' :: b ≠ [] := by simp
    simp [parseRangeSpec, htrim, hne, hsplit, ha, hb]
  · intro a ha hnone htrim
    simp [parseRangeSpec, htrim, ha, hnone]

/-- C6 witness: the parser evaluated on each clause of the theorem — the
empty string, the bare separator, a bare reference with single mode off and
on, and a well-formed pair. -/
theorem c6_parseRangeSpec_witness :
    isError (parseRangeSpec [] false) = true ∧
    isError (parseRangeSpec ("..").toList true) = true ∧
    isError (parseRangeSpec ("abc").toList false) = true ∧
    parseRangeSpec (("a1b2c3").toList ++ '.' :: '.' :: ("d4e5f6").toList) false =
      .ok (("a1b2c3").toList, ("d4e5f6").toList) ∧
    parseRangeSpec ("abc").toList true = .ok (("abc").toList, ("abc").toList) :=
  ⟨c6_parseRangeSpec_spec.1 [] false (by decide),
   c6_parseRangeSpec_spec.2.1 ("..").toList true [] [] (by decide) (by decide),
   c6_parseRangeSpec_spec.2.2.1 ("abc").toList (by decide) (by decide),
   c6_parseRangeSpec_spec.2.2.2.1 ("a1b2c3").toList ("d4e5f6").toList false
     (by decide) (by decide) (by decide) (by decide) (by decide),
   c6_parseRangeSpec_spec.2.2.2.2 ("abc").toList (by decide) (by decide) (by decide)⟩

/-- C2: the persisted undo stack satisfies 0 ≤ position ≤ len(history) in
every state observable by push/undo/redo — loading normalises an
out-of-range position to the history length, PushUndo leaves the position
equal to the new history length, Undo succeeds exactly when the position is
positive and decrements it, and Redo succeeds exactly when the position is
below the history length and increments it, all preserving the invariant. -/
theorem c2_undo_stack_invariant :
    (∀ (α : Type) (h : List α) (p : Int), logs.WF (logs.loadUndoStateLocked h p)) ∧
    (∀ (α : Type) (h : List α) (p : Int), (p < 0 ∨ p > h.length) →
      logs.loadUndoStateLocked h p = ⟨h, h.length⟩) ∧
    (∀ (α : Type) (s : logs.UndoState α) (e : α),
      logs.WF (logs.PushUndo s e) ∧
      (logs.PushUndo s e).position = (logs.PushUndo s e).history.length) ∧
    (∀ (α : Type) (s : logs.UndoState α), logs.WF s →
      ((logs.Undo s).isSome ↔ 0 < s.position) ∧
      (∀ e s', logs.Undo s = some (e, s') →
        logs.WF s' ∧ s'.position = s.position - 1)) ∧
    (∀ (α : Type) (s : logs.UndoState α), logs.WF s →
      ((logs.Redo s).isSome ↔ s.position < s.history.length) ∧
      (∀ e s', logs.Redo s = some (e, s') →
        logs.WF s' ∧ s'.position = s.position + 1)) := by
  refine ⟨?_, ?_, ?_, ?_, ?_⟩
  · intro α h p
    unfold logs.loadUndoStateLocked logs.WF
    split_ifs with hp
    · exact le_refl _
    · simp only [not_or, not_lt, not_le] at hp
      show p.toNat ≤ h.length
      omega
  · intro α h p hp
    unfold logs.loadUndoStateLocked
    rw [if_pos hp]
  · intro α s e
    exact ⟨le_refl _, rfl⟩
  · intro α s hWF
    constructor
    · unfold logs.Undo
      by_cases h0 : s.position = 0
      · simp [h0]
      · have hlt : s.position - 1 < s.history.length := by
          unfold logs.WF at hWF; omega
        simp [h0, List.getElem?_eq_getElem hlt]
        omega
    · intro e s' h
      unfold logs.Undo at h
      by_cases h0 : s.position = 0
      · rw [if_pos h0] at h; exact Option.noConfusion h
      · rw [if_neg h0] at h
        rcases Option.map_eq_some'.mp h with ⟨x, hx, hpair⟩
        cases hpair
        refine ⟨?_, rfl⟩
        unfold logs.WF at hWF ⊢
        simp only
        omega
  · intro α s hWF
    constructor
    · unfold logs.Redo
      by_cases hge : s.history.length ≤ s.position
      · simp [hge]
      · have hlt : s.position < s.history.length := lt_of_not_le hge
        simp [hge, List.getElem?_eq_getElem hlt]
        omega
    · intro e s' h
      unfold logs.Redo at h
      by_cases hge : s.history.length ≤ s.position
      · rw [if_pos hge] at h; exact Option.noConfusion h
      · rw [if_neg hge] at h
        rcases Option.map_eq_some'.mp h with ⟨x, hx, hpair⟩
        cases hpair
        refine ⟨?_, rfl⟩
        unfold logs.WF
        simp only
        omega

/-- C2 witness: the invariant clauses evaluated on a concrete two-entry
stack: an out-of-range persisted position, a push, an undo and a redo. -/
theorem c2_undo_stack_invariant_witness :
    logs.WF (logs.loadUndoStateLocked [1, 2] (-3)) ∧
    logs.loadUndoStateLocked [1, 2] (-3) = ⟨[1, 2], 2⟩ ∧
    logs.WF (logs.PushUndo (⟨[1, 2], 1⟩ : logs.UndoState Nat) 7) ∧
    ((logs.Undo (⟨[1, 2], 2⟩ : logs.UndoState Nat)).isSome ↔
      0 < (2 : Nat)) ∧
    ((logs.Redo (⟨[1, 2], 0⟩ : logs.UndoState Nat)).isSome ↔
      (0 : Nat) < [1, 2].length) :=
  ⟨c2_undo_stack_invariant.1 Nat [1, 2] (-3),
   c2_undo_stack_invariant.2.1 Nat [1, 2] (-3) (by decide),
   (c2_undo_stack_invariant.2.2.1 Nat ⟨[1, 2], 1⟩ 7).1,
   (c2_undo_stack_invariant.2.2.2.1 Nat ⟨[1, 2], 2⟩ (by decide)).1,
   (c2_undo_stack_invariant.2.2.2.2 Nat ⟨[1, 2], 0⟩ (by decide)).1⟩

/-- C3: for every state satisfying the invariant, PushUndo keeps exactly the
first `position` entries, appends the new entry after them, and sets the
position to the length of the resulting history (the kept prefix plus one). -/
theorem c3_push_truncates :
    ∀ (α : Type) (s : logs.UndoState α), logs.WF s → ∀ e : α,
      logs.PushUndo s e =
        ⟨s.history.take s.position ++ [e], s.position + 1⟩ := by
  intro α s hWF e
  unfold logs.PushUndo
  unfold logs.WF at hWF
  by_cases hlt : s.position < s.history.length
  · rw [if_pos hlt]
    have hlen : (s.history.take s.position ++ [e]).length = s.position + 1 := by
      simp [List.length_take]
      omega
    simp [hlen]
  · have heq : s.position = s.history.length := by omega
    rw [if_neg hlt]
    have htake : s.history.take s.position = s.history := by
      rw [heq]; exact List.take_length _
    rw [htake]
    have hlen : (s.history ++ [e]).length = s.position + 1 := by
      simp [heq]
    simp [hlen]

/-- C3 witness: pushing after one undo on a two-entry stack discards the
undone entry and keeps the first. -/
theorem c3_push_truncates_witness :
    logs.PushUndo (⟨[1, 2], 1⟩ : logs.UndoState Nat) 7 =
      ⟨([1, 2] : List Nat).take 1 ++ [7], 1 + 1⟩ :=
  c3_push_truncates Nat ⟨[1, 2], 1⟩ (by decide) 7

theorem pushAll_from_empty {α : Type} :
    ∀ (l acc : List α),
      l.foldl logs.PushUndo ⟨acc, acc.length⟩ = ⟨acc ++ l, (acc ++ l).length⟩ := by
  intro l
  induction l with
  | nil => intro acc; simp
  | cons e l' ih =>
      intro acc
      rw [List.foldl_cons]
      have hstep : logs.PushUndo (⟨acc, acc.length⟩ : logs.UndoState α) e =
          ⟨acc ++ [e], (acc ++ [e]).length⟩ := by
        unfold logs.PushUndo
        rw [if_neg (lt_irrefl _)]
      rw [hstep, ih (acc ++ [e])]
      simp

theorem undoN_full {α : Type} (l : List α) :
    ∀ p : Nat, p ≤ l.length →
      logs.undoN (⟨l, p⟩ : logs.UndoState α) p =
        some ((l.take p).reverse, ⟨l, 0⟩) := by
  intro p
  induction p with
  | zero => intro _; simp [logs.undoN]
  | succ n ih =>
      intro hle
      have hlt : n < l.length := by omega
      have hundo : logs.Undo (⟨l, n + 1⟩ : logs.UndoState α) =
          some (l[n], ⟨l, n⟩) := by
        unfold logs.Undo
        rw [if_neg (Nat.succ_ne_zero n)]
        simp [List.getElem?_eq_getElem hlt]
      rw [logs.undoN, hundo]
      dsimp only
      rw [ih (le_of_lt hlt)]
      have hts : (l.take (n + 1)).reverse = l[n] :: (l.take n).reverse := by
        rw [List.take_succ, List.getElem?_eq_getElem hlt]
        simp
      simp only [Option.map_some']
      rw [hts]

theorem redoN_full {α : Type} (l : List α) :
    ∀ (n p : Nat), p + n = l.length →
      logs.redoN (⟨l, p⟩ : logs.UndoState α) n =
        some (l.drop p, ⟨l, l.length⟩) := by
  intro n
  induction n with
  | zero =>
      intro p hp
      have : p = l.length := by omega
      subst this
      simp [logs.redoN, List.drop_length]
  | succ n ih =>
      intro p hp
      have hlt : p < l.length := by omega
      have hredo : logs.Redo (⟨l, p⟩ : logs.UndoState α) =
          some (l[p], ⟨l, p + 1⟩) := by
        unfold logs.Redo
        rw [if_neg (not_le.mpr hlt)]
        simp [List.getElem?_eq_getElem hlt]
      rw [logs.redoN, hredo]
      dsimp only
      rw [ih (p + 1) (by omega)]
      simp only [Option.map_some']
      rw [List.drop_eq_getElem_cons hlt]

/-- C4: pushing the entries of l onto an empty stack, then len(l) successful
undos, then len(l) successful redos, yields the entries first in reverse
order then in forward order and ends with position = len(l), exactly as
after the pushes. -/
theorem c4_undo_redo_roundtrip :
    ∀ (α : Type) (l : List α), 1 ≤ l.length →
      l.foldl logs.PushUndo ⟨[], 0⟩ = ⟨l, l.length⟩ ∧
      logs.undoN (⟨l, l.length⟩ : logs.UndoState α) l.length =
        some (l.reverse, ⟨l, 0⟩) ∧
      logs.redoN (⟨l, 0⟩ : logs.UndoState α) l.length =
        some (l, ⟨l, l.length⟩) := by
  intro α l _
  refine ⟨?_, ?_, ?_⟩
  · have h := pushAll_from_empty l []
    simpa using h
  · have h := undoN_full l l.length (le_refl _)
    simpa using h
  · have h := redoN_full l l.length 0 (by omega)
    simpa using h

/-- C4 witness: the round trip evaluated on the two-entry stack [10, 20]. -/
theorem c4_undo_redo_roundtrip_witness :
    ([10, 20] : List Nat).foldl logs.PushUndo ⟨[], 0⟩ =
      ⟨[10, 20], ([10, 20] : List Nat).length⟩ ∧
    logs.undoN (⟨[10, 20], ([10, 20] : List Nat).length⟩ : logs.UndoState Nat)
        ([10, 20] : List Nat).length =
      some (([10, 20] : List Nat).reverse, ⟨[10, 20], 0⟩) ∧
    logs.redoN (⟨[10, 20], 0⟩ : logs.UndoState Nat) ([10, 20] : List Nat).length =
      some ([10, 20], ⟨[10, 20], ([10, 20] : List Nat).length⟩) :=
  c4_undo_redo_roundtrip Nat [10, 20] (by decide)

/-- C7: duplicate detection is total on fingerprint failures — an empty
candidate list yields an empty result with no error, and once the target
log query succeeds the detection always succeeds, returning a subset of the
candidates in candidate order in which every member has a successfully
computed non-empty fingerprint (so a commit whose fingerprint computation
fails, on either side, is treated as a non-match rather than an error). -/
theorem c7_detect_duplicates :
    (∀ (gw : Gateway) (patchID : GoString → Except GoString GoString)
        (target : GoString),
      (DetectDuplicates gw patchID target []).2 = .ok []) ∧
    (∀ (gw : Gateway) (patchID : GoString → Except GoString GoString)
        (target : GoString) (commits : List Commit) (out : GoString),
      commits ≠ [] →
      gw [("log").toList, ("--pretty=%H").toList, target] = .ok out →
      ∃ dups, (DetectDuplicates gw patchID target commits).2 = .ok dups ∧
        dups.Sublist commits ∧
        ∀ c ∈ dups, ∃ p, patchID c.hash = .ok p ∧ p ≠ []) := by
  constructor
  · intro gw patchID target
    simp [DetectDuplicates]
  · intro gw patchID target commits out hne hgw
    unfold DetectDuplicates
    rw [if_neg hne]
    simp only [hgw]
    refine ⟨_, rfl, List.filter_sublist _, ?_⟩
    intro c hc
    have hf := List.of_mem_filter hc
    rcases hp : patchID c.hash with e | p
    · simp only [hp] at hf
      exact absurd hf (by simp)
    · simp only [hp] at hf
      by_cases hpe : p = []
      · rw [if_pos hpe] at hf
        exact absurd hf (by simp)
      · exact ⟨p, rfl, hpe⟩

/-- C7 witness: the detector evaluated with a one-commit target log and a
constant fingerprint oracle, on the empty and a one-candidate list. -/
theorem c7_detect_duplicates_witness :
    (DetectDuplicates (fun _ => .ok ("h1").toList)
        (fun _ => .ok ("pid").toList) ("target").toList []).2 = .ok [] ∧
    ∃ dups,
      (DetectDuplicates (fun _ => .ok ("h1").toList)
          (fun _ => .ok ("pid").toList) ("target").toList
          [{hash := ("h1").toList}]).2 = .ok dups ∧
      dups.Sublist [{hash := ("h1").toList}] ∧
      ∀ c ∈ dups, ∃ p,
        (fun _ => (Except.ok ("pid").toList : Except GoString GoString)) c.hash =
          .ok p ∧ p ≠ [] :=
  ⟨c7_detect_duplicates.1 (fun _ => .ok ("h1").toList)
      (fun _ => .ok ("pid").toList) ("target").toList,
   c7_detect_duplicates.2 (fun _ => .ok ("h1").toList)
      (fun _ => .ok ("pid").toList) ("target").toList
      [{hash := ("h1").toList}] ("h1").toList (by decide) rfl⟩

/-- C5 counterexample: when both rev-list range queries fail with an error,
the range resolver returns an error — the literal [start] / [start, end]
fallback is not reached — contradicting the claim that metadata lookup
failure never produces an error. -/
theorem c5_range_fallback_counterexample :
    isError (collectCommitsForRange (fun _ => .error ("boom").toList)
      ("a").toList ("b").toList).2 = true := by decide

/-- C5 (amended): the resolver returns an error when both range queries fail;
when both queries succeed but produce no identifiers it returns the literal
[start] — not [start, end], even when start and end differ — and whenever it
succeeds the result is a non-empty commit list. -/
theorem c5_range_fallback :
    (∀ (gw : Gateway) (start end_ st0 st1 : GoString),
      gw [("rev-list").toList, ("--reverse").toList,
          start ++ '^' :: '.' :: '.' :: end_] = .error st0 →
      gw [("rev-list").toList, ("--reverse").toList,
          start ++ '.' :: '.' :: end_] = .error st1 →
      isError (collectCommitsForRange gw start end_).2 = true) ∧
    (∀ (gw : Gateway) (start end_ out0 out1 : GoString),
      gw [("rev-list").toList, ("--reverse").toList,
          start ++ '^' :: '.' :: '.' :: end_] = .ok out0 →
      fields (trimSpace out0) = [] →
      gw [("rev-list").toList, ("--reverse").toList,
          start ++ '.' :: '.' :: end_] = .ok out1 →
      fields (trimSpace out1) = [] →
      (collectCommitsForRange gw start end_).2 = .ok [{hash := start}]) ∧
    (∀ (gw : Gateway) (start end_ : GoString) (l : List Commit),
      (collectCommitsForRange gw start end_).2 = .ok l → l ≠ []) := by
  refine ⟨?_, ?_, ?_⟩
  · intro gw start end_ st0 st1 h0 h1
    simp only [collectCommitsForRange, h0, h1]
    rfl
  · intro gw start end_ out0 out1 h0 hf0 h1 hf1
    simp only [collectCommitsForRange, h0, hf0, h1, hf1]
    simp
  · intro gw start end_ l h
    unfold collectCommitsForRange at h
    rcases h0 : gw [("rev-list").toList, ("--reverse").toList,
        start ++ '^' :: '.' :: '.' :: end_] with st0 | out0 <;>
      simp only [h0] at h
    · rcases h1 : gw [("rev-list").toList, ("--reverse").toList,
          start ++ '.' :: '.' :: end_] with st1 | out1 <;>
        simp only [h1] at h
      · exact absurd h (by simp)
      · by_cases hc : fields (trimSpace out1) = [] ∨
            (fields (trimSpace out1)).head? ≠ some start
        · rw [if_pos hc, if_neg (List.cons_ne_nil _ _)] at h
          simp only [Except.ok.injEq] at h
          subst h; simp
        · rw [if_neg hc] at h
          have hlo : fields (trimSpace out1) ≠ [] := fun g => hc (Or.inl g)
          rw [if_neg hlo] at h
          simp only [Except.ok.injEq] at h
          subst h; simp [hlo]
    · by_cases hf0 : fields (trimSpace out0) = []
      · rw [if_pos hf0] at h
        rcases h1 : gw [("rev-list").toList, ("--reverse").toList,
            start ++ '.' :: '.' :: end_] with st1 | out1 <;>
          simp only [h1] at h
        · exact absurd h (by simp)
        · by_cases hc : fields (trimSpace out1) = [] ∨
              (fields (trimSpace out1)).head? ≠ some start
          · rw [if_pos hc, if_neg (List.cons_ne_nil _ _)] at h
            simp only [Except.ok.injEq] at h
            subst h; simp
          · rw [if_neg hc] at h
            have hlo : fields (trimSpace out1) ≠ [] := fun g => hc (Or.inl g)
            rw [if_neg hlo] at h
            simp only [Except.ok.injEq] at h
            subst h; simp [hlo]
      · rw [if_neg hf0] at h
        dsimp only at h
        rw [if_neg hf0] at h
        simp only [Except.ok.injEq] at h
        subst h; simp [hf0]

/-- C5 witness: the amended clauses evaluated at concrete gateways — one
failing both queries and one succeeding with empty output. -/
theorem c5_range_fallback_witness :
    isError (collectCommitsForRange (fun _ => .error ("x").toList)
      ("a").toList ("b").toList).2 = true ∧
    (collectCommitsForRange (fun _ => .ok []) ("a").toList ("b").toList).2 =
      .ok [{hash := ("a").toList}] :=
  ⟨c5_range_fallback.1 (fun _ => .error ("x").toList) ("a").toList ("b").toList
      ("x").toList ("x").toList rfl rfl,
   c5_range_fallback.2.1 (fun _ => .ok []) ("a").toList ("b").toList [] []
      rfl (by decide) rfl (by decide)⟩

theorem splitCommandAux_nil (args : List GoString) (current : GoString)
    (inQuotes : Bool) :
    splitCommandAux [] args current inQuotes =
      if inQuotes then .error ("unterminated quote in command").toList
      else .ok (args ++ if current = [] then [] else [current.reverse]) := by
  conv_lhs => rw [splitCommandAux.eq_def]

theorem splitCommandAux_quote (rest : GoString) (args : List GoString)
    (current : GoString) (inQuotes : Bool) :
    splitCommandAux ('"' :: rest) args current inQuotes =
      splitCommandAux rest args current (!inQuotes) := by
  conv_lhs => rw [splitCommandAux.eq_def]
  dsimp only
  rw [if_pos rfl]

theorem splitCommandAux_space (rest : GoString) (args : List GoString)
    (current : GoString) :
    splitCommandAux (' ' :: rest) args current false =
      if current = [] then splitCommandAux rest args current false
      else splitCommandAux rest (args ++ [current.reverse]) [] false := by
  conv_lhs => rw [splitCommandAux.eq_def]
  dsimp only
  rw [if_neg (by decide), if_pos rfl]
  rfl

theorem splitCommandAux_plain {c : Char} (h1 : c ≠ '"') (h2 : c ≠ ' ')
    (h3 : c ≠ '\\') (rest : GoString) (args : List GoString)
    (current : GoString) (inQuotes : Bool) :
    splitCommandAux (c :: rest) args current inQuotes =
      splitCommandAux rest args (c :: current) inQuotes := by
  conv_lhs => rw [splitCommandAux.eq_def]
  dsimp only
  rw [if_neg h1, if_neg h2, if_neg h3]

theorem splitCommandAux_quoted :
    ∀ (msg rest : GoString) (args : List GoString) (cur : GoString),
      (∀ c ∈ msg, c ≠ '"' ∧ c ≠ '\\') →
      splitCommandAux (msg ++ '"' :: rest) args cur true =
        splitCommandAux rest args (msg.reverse ++ cur) false := by
  intro msg
  induction msg with
  | nil =>
      intro rest args cur _
      simp only [List.nil_append]
      conv_lhs => rw [splitCommandAux.eq_def]
      simp
  | cons c msg' ih =>
      intro rest args cur hm
      obtain ⟨hq, hb⟩ := hm c (by simp)
      have hm' : ∀ d ∈ msg', d ≠ '"' ∧ d ≠ '\\' :=
        fun d hd => hm d (by simp [hd])
      rw [List.cons_append]
      conv_lhs => rw [splitCommandAux.eq_def]
      dsimp only
      rw [if_neg hq]
      by_cases hsp : c = ' '
      · rw [if_pos hsp, if_pos rfl]
        rw [ih rest args (c :: cur) hm']
        simp
      · rw [if_neg hsp, if_neg hb]
        rw [ih rest args (c :: cur) hm']
        simp

/-- C10 counterexample: for the empty message — which contains no double
quote and no backslash — splitting the commit command of the transfer plan
yields only three arguments: the empty quoted argument is dropped by the
splitter, so the result is not [git, commit, -m, message]. -/
theorem c10_quoting_roundtrip_counterexample :
    splitCommand ((transfer.Plan ("main").toList ("feature").toList
        ("a").toList ("b").toList []).getD 2 []) =
      .ok [("git").toList, ("commit").toList, ("-m").toList] ∧
    [("git").toList, ("commit").toList, ("-m").toList] ≠
      [("git").toList, ("commit").toList, ("-m").toList, ([] : GoString)] := by
  constructor
  · decide
  · decide

/-- C10 (amended): for every non-empty message of printable ASCII characters
other than double quote and backslash, splitting the commit command string
produced by the transfer plan yields exactly [git, commit, -m, message], so
such a message — spaces included — reaches git as a single argument. -/
theorem c10_quoting_roundtrip :
    ∀ (source target startHash endHash message : GoString),
      message ≠ [] →
      (∀ c ∈ message, verbatimChar c = true) →
      splitCommand
          ((transfer.Plan source target startHash endHash message).getD 2 []) =
        .ok [("git").toList, ("commit").toList, ("-m").toList, message] := by
  intro source target startHash endHash message hne hv
  have hv' : ∀ c ∈ message, c ≠ '"' ∧ c ≠ '\\' := by
    intro c hc
    have h' : (0x20 ≤ c.toNat ∧ c.toNat ≤ 0x7e) ∧ c ≠ '"' ∧ c ≠ '\\' := by
      simpa [verbatimChar, Bool.and_eq_true, and_assoc, decide_eq_true_eq]
        using hv c hc
    exact h'.2
  have hcmd : (transfer.Plan source target startHash endHash message).getD 2 [] =
      ("git commit -m ").toList ++ goQuote message := rfl
  rw [hcmd, goQuote_verbatim hv]
  show splitCommandAux ('g' :: 'i' :: 't' :: ' ' :: 'c' :: 'o' :: 'm' :: 'm' ::
      'i' :: 't' :: ' ' :: '-' :: 'm' :: ' ' :: '"' :: (message ++ ['"']))
      [] [] false = _
  rw [splitCommandAux_plain (by decide) (by decide) (by decide)]
  rw [splitCommandAux_plain (by decide) (by decide) (by decide)]
  rw [splitCommandAux_plain (by decide) (by decide) (by decide)]
  rw [splitCommandAux_space, if_neg (by decide)]
  rw [splitCommandAux_plain (by decide) (by decide) (by decide)]
  rw [splitCommandAux_plain (by decide) (by decide) (by decide)]
  rw [splitCommandAux_plain (by decide) (by decide) (by decide)]
  rw [splitCommandAux_plain (by decide) (by decide) (by decide)]
  rw [splitCommandAux_plain (by decide) (by decide) (by decide)]
  rw [splitCommandAux_plain (by decide) (by decide) (by decide)]
  rw [splitCommandAux_space, if_neg (by decide)]
  rw [splitCommandAux_plain (by decide) (by decide) (by decide)]
  rw [splitCommandAux_plain (by decide) (by decide) (by decide)]
  rw [splitCommandAux_space, if_neg (by decide)]
  rw [splitCommandAux_quote, Bool.not_false]
  rw [splitCommandAux_quoted message [] _ [] hv']
  rw [splitCommandAux_nil]
  rw [if_neg (by decide)]
  rw [if_neg (by simp [hne])]
  simp

/-- C10 witness: the round trip evaluated on a message containing a space. -/
theorem c10_quoting_roundtrip_witness :
    splitCommand ((transfer.Plan ("main").toList ("feature").toList
        ("a").toList ("b").toList ("hot fix").toList).getD 2 []) =
      .ok [("git").toList, ("commit").toList, ("-m").toList,
        ("hot fix").toList] :=
  c10_quoting_roundtrip ("main").toList ("feature").toList ("a").toList
    ("b").toList ("hot fix").toList (by decide) (by decide)


theorem printPlan_effects (commands : List GoString) :
    ∀ eff ∈ printPlan commands, ∃ m, eff = Effect.print m := by
  intro eff h
  unfold printPlan at h
  split_ifs at h
  · simp at h
    exact ⟨_, h⟩
  · simp at h
    rcases h with h | ⟨c, hc, h⟩
    · exact ⟨_, h⟩
    · exact ⟨_, h.symm⟩

theorem choice_effects (env : Env) (mode : GoString) :
    ∀ eff ∈ (handleDuplicateChoice env mode).1, ∃ m, eff = Effect.print m := by
  intro eff h
  unfold handleDuplicateChoice at h
  split_ifs at h <;> simp at h <;> exact ⟨_, h⟩

theorem collect_effects_readonly (gw : Gateway) (start end_ : GoString) :
    ∀ eff ∈ (collectCommitsForRange gw start end_).1, dryRunSafe eff := by
  intro eff h
  unfold collectCommitsForRange at h
  rcases h0 : gw [("rev-list").toList, ("--reverse").toList,
      start ++ '^' :: '.' :: '.' :: end_] with st0 | out0 <;>
    simp only [h0] at h
  · rcases h1 : gw [("rev-list").toList, ("--reverse").toList,
        start ++ '.' :: '.' :: end_] with st1 | out1 <;>
      simp only [h1] at h <;>
      (rcases List.mem_append.mp h with h2 | h2 <;> simp at h2 <;>
        subst h2 <;> simp [dryRunSafe])
  · by_cases hf0 : fields (trimSpace out0) = []
    · rw [if_pos hf0] at h
      rcases h1 : gw [("rev-list").toList, ("--reverse").toList,
          start ++ '.' :: '.' :: end_] with st1 | out1 <;>
        simp only [h1] at h <;>
        (rcases List.mem_append.mp h with h2 | h2 <;> simp at h2 <;>
          subst h2 <;> simp [dryRunSafe])
    · rw [if_neg hf0] at h
      dsimp only at h
      simp at h
      subst h
      simp [dryRunSafe]

theorem detect_effects_readonly (gw : Gateway)
    (patchID : GoString → Except GoString GoString)
    (target : GoString) (commits : List Commit) :
    ∀ eff ∈ (DetectDuplicates gw patchID target commits).1, dryRunSafe eff := by
  intro eff h
  unfold DetectDuplicates at h
  split_ifs at h with hc
  · simp at h
  · rcases hg : gw [("log").toList, ("--pretty=%H").toList, target] with st | out <;>
      simp only [hg] at h
    · simp at h
      subst h
      simp [dryRunSafe]
    · simp at h
      rcases h with h | ⟨x, hx, h⟩ | ⟨x, hx, h⟩
      · subst h; simp [dryRunSafe]
      · subst h; simp [dryRunSafe]
      · subst h; simp [dryRunSafe]

theorem transfer_dryrun_effects (env : Env)
    (msgTemplate mode0 flagFrom flagTo flagRange flagMessage : GoString)
    (flagEdit flagAuto : Bool) :
    ∀ eff ∈ (transferRun env msgTemplate mode0 false flagFrom flagTo flagRange
        flagMessage flagEdit flagAuto).1, dryRunSafe eff := by
  intro eff h
  unfold transferRun at h
  by_cases h1 : flagFrom = [] ∨ flagTo = [] ∨ flagRange = []
  · rw [if_pos h1] at h; simp at h
  · rw [if_neg h1] at h
    rcases hp : parseRangeSpec flagRange false with e | pr <;>
      simp only [hp] at h
    · simp at h
    · obtain ⟨startHash, endHash⟩ := pr
      by_cases h2 : flagMessage ≠ [] ∧ (flagEdit ∨ flagAuto)
      · rw [if_pos h2] at h; simp at h
      · rw [if_neg h2] at h
        by_cases h3 : flagEdit ∧ flagAuto
        · rw [if_pos h3] at h; simp at h
        · rw [if_neg h3] at h
          rcases hcol : collectCommitsForRange env.gw startHash endHash with
            ⟨effs1, rc⟩
          rw [hcol] at h
          have hc1 : ∀ e ∈ effs1, dryRunSafe e := by
            have hall := collect_effects_readonly env.gw startHash endHash
            rw [hcol] at hall
            exact hall
          dsimp only at h
          rcases rc with er | commits
          · dsimp only at h
            exact hc1 _ h
          · dsimp only at h
            by_cases h4 : commits ≠ []
            · rw [if_pos h4] at h
              rcases hdet : DetectDuplicates env.gw env.patchID flagTo commits
                with ⟨effs2, rd⟩
              rw [hdet] at h
              have hc2 : ∀ e ∈ effs2, dryRunSafe e := by
                have hall := detect_effects_readonly env.gw env.patchID
                  flagTo commits
                rw [hdet] at hall
                exact hall
              dsimp only at h
              rcases rd with er | dups
              · dsimp only at h
                rcases List.mem_append.mp h with h5 | h5
                · exact hc1 _ h5
                · exact hc2 _ h5
              · dsimp only at h
                by_cases h6 : dups ≠ []
                · rw [if_pos h6] at h
                  rcases hch : handleDuplicateChoice env
                      (if mode0 = [] then ("ask").toList else mode0) with
                    ⟨effs3, rp⟩
                  rw [hch] at h
                  have hc3 : ∀ e ∈ effs3, dryRunSafe e := by
                    intro e he
                    have hall := choice_effects env
                      (if mode0 = [] then ("ask").toList else mode0)
                    rw [hch] at hall
                    obtain ⟨m, hm⟩ := hall e he
                    subst hm
                    simp [dryRunSafe]
                  dsimp only at h
                  rcases rp with er | proceed
                  · dsimp only at h
                    rcases List.mem_append.mp h with h5 | h5
                    · rcases List.mem_append.mp h5 with h7 | h7
                      · exact hc1 _ h7
                      · exact hc2 _ h7
                    · exact hc3 _ h5
                  · dsimp only at h
                    cases proceed
                    · simp only [Bool.not_false, if_pos rfl, if_true] at h
                      rcases List.mem_append.mp h with h5 | h5
                      · rcases List.mem_append.mp h5 with h7 | h7
                        · rcases List.mem_append.mp h7 with h8 | h8
                          · exact hc1 _ h8
                          · exact hc2 _ h8
                        · exact hc3 _ h7
                      · simp at h5
                        subst h5
                        simp [dryRunSafe]
                    · simp only [Bool.not_true, Bool.false_eq_true, if_false] at h
                      rcases hres : resolveTransferMessage env msgTemplate
                          flagMessage flagEdit flagAuto flagFrom flagTo
                          (startHash ++ '.' :: '.' :: endHash) with er | msg <;>
                        rw [hres] at h <;> dsimp only at h
                      · rcases List.mem_append.mp h with h5 | h5
                        · rcases List.mem_append.mp h5 with h7 | h7
                          · rcases List.mem_append.mp h7 with h8 | h8
                            · exact hc1 _ h8
                            · exact hc2 _ h8
                          · exact hc3 _ h7
                        · simp at h5
                      · simp only [Bool.not_false, if_pos rfl, if_true] at h
                        rcases List.mem_append.mp h with h5 | h5
                        · rcases List.mem_append.mp h5 with h7 | h7
                          · rcases List.mem_append.mp h7 with h8 | h8
                            · exact hc1 _ h8
                            · exact hc2 _ h8
                          · exact hc3 _ h7
                        · obtain ⟨m, hm⟩ := printPlan_effects _ _ h5
                          subst hm
                          simp [dryRunSafe]
                · rw [if_neg h6] at h
                  rcases hres : resolveTransferMessage env msgTemplate
                      flagMessage flagEdit flagAuto flagFrom flagTo
                      (startHash ++ '.' :: '.' :: endHash) with er | msg <;>
                    rw [hres] at h <;> dsimp only at h
                  · rcases List.mem_append.mp h with h5 | h5
                    · rcases List.mem_append.mp h5 with h7 | h7
                      · exact hc1 _ h7
                      · exact hc2 _ h7
                    · simp at h5
                  · simp only [Bool.not_false, if_pos rfl, if_true] at h
                    rcases List.mem_append.mp h with h5 | h5
                    · rcases List.mem_append.mp h5 with h7 | h7
                      · exact hc1 _ h7
                      · exact hc2 _ h7
                    · obtain ⟨m, hm⟩ := printPlan_effects _ _ h5
                      subst hm
                      simp [dryRunSafe]
            · rw [if_neg h4] at h
              rcases hres : resolveTransferMessage env msgTemplate
                  flagMessage flagEdit flagAuto flagFrom flagTo
                  (startHash ++ '.' :: '.' :: endHash) with er | msg <;>
                rw [hres] at h <;> dsimp only at h
              · rcases List.mem_append.mp h with h5 | h5
                · exact hc1 _ h5
                · simp at h5
              · simp only [Bool.not_false, if_pos rfl, if_true] at h
                rcases List.mem_append.mp h with h5 | h5
                · exact hc1 _ h5
                · obtain ⟨m, hm⟩ := printPlan_effects _ _ h5
                  subst hm
                  simp [dryRunSafe]

theorem revert_dryrun_effects (env : Env)
    (flagOn flagRange flagMessage : GoString) :
    ∀ eff ∈ (revertRun env false flagOn flagRange flagMessage).1,
      ∃ m, eff = Effect.print m := by
  intro eff h
  unfold revertRun at h
  by_cases h1 : flagOn = []
  · rw [if_pos h1] at h; simp at h
  · rw [if_neg h1] at h
    by_cases h2 : flagRange = []
    · rw [if_pos h2] at h; simp at h
    · rw [if_neg h2] at h
      rcases hp : parseRangeSpec flagRange true with e | pr <;>
        simp only [hp, Bool.not_false, if_pos rfl, if_true] at h
      · simp at h
      · exact printPlan_effects _ _ h

theorem restore_dryrun_effects (env : Env) (flagCommit flagBranch : GoString) :
    ∀ eff ∈ (restoreRun env false flagCommit flagBranch).1,
      ∃ m, eff = Effect.print m := by
  intro eff h
  unfold restoreRun at h
  by_cases h1 : flagCommit = [] ∨ flagBranch = []
  · rw [if_pos h1] at h; simp at h
  · rw [if_neg h1] at h
    simp only [Bool.not_false, if_pos rfl, if_true] at h
    exact printPlan_effects _ _ h

theorem revert_dryrun_ok (env : Env)
    (flagOn flagRange flagMessage startHash endHash : GoString)
    (h1 : flagOn ≠ []) (h2 : flagRange ≠ [])
    (hp : parseRangeSpec flagRange true = .ok (startHash, endHash)) :
    (revertRun env false flagOn flagRange flagMessage).2 = .ok () := by
  unfold revertRun
  rw [if_neg h1, if_neg h2, hp]
  simp only [Bool.not_false, if_pos rfl, if_true]

theorem restore_dryrun_ok (env : Env) (flagCommit flagBranch : GoString)
    (h1 : ¬(flagCommit = [] ∨ flagBranch = [])) :
    (restoreRun env false flagCommit flagBranch).2 = .ok () := by
  unfold restoreRun
  rw [if_neg h1]
  simp only [Bool.not_false, if_pos rfl, if_true]

theorem resolve_no_edit_ok (env : Env) (template explicit : GoString)
    (auto : Bool) (source target rangeSpec : GoString) :
    ∃ m, resolveTransferMessage env template explicit false auto
      source target rangeSpec = .ok m := by
  unfold resolveTransferMessage
  by_cases h : explicit ≠ []
  · rw [if_pos h]; exact ⟨_, rfl⟩
  · rw [if_neg h]
    by_cases ha : auto = true
    · rw [if_pos ha]; exact ⟨_, rfl⟩
    · rw [if_neg ha, if_neg (by simp)]
      exact ⟨_, rfl⟩

theorem transfer_dryrun_ok (env : Env)
    (msgTemplate flagFrom flagTo flagRange flagMessage : GoString)
    (startHash endHash : GoString) (commits dups : List Commit)
    (hflag : ¬(flagFrom = [] ∨ flagTo = [] ∨ flagRange = []))
    (hp : parseRangeSpec flagRange false = .ok (startHash, endHash))
    (hcol : (collectCommitsForRange env.gw startHash endHash).2 = .ok commits)
    (hdet : (DetectDuplicates env.gw env.patchID flagTo commits).2 = .ok dups) :
    (transferRun env msgTemplate ("skip").toList false flagFrom flagTo flagRange
      flagMessage false false).2 = .ok () := by
  obtain ⟨m, hres⟩ := resolve_no_edit_ok env msgTemplate flagMessage false
    flagFrom flagTo (startHash ++ '.' :: '.' :: endHash)
  unfold transferRun
  rw [if_neg hflag, hp]
  dsimp only
  rw [if_neg (by simp), if_neg (by simp)]
  rw [hcol]
  dsimp only
  by_cases hc4 : commits ≠ []
  · rw [if_pos hc4, hdet]
    dsimp only
    by_cases hc6 : dups ≠ []
    · rw [if_pos hc6]
      rw [show (if ("skip").toList = ([] : GoString) then ("ask").toList
          else ("skip").toList) = ("skip").toList from by decide]
      rw [show handleDuplicateChoice env ("skip").toList =
          ([.print ("Detected duplicate patches; skipping.").toList], .ok false)
          from rfl]
      simp only [Bool.not_false, if_pos rfl, if_true]
    · rw [if_neg hc6, hres]
      simp only [Bool.not_false, if_pos rfl, if_true]
  · rw [if_neg hc4, hres]
    simp only [Bool.not_false, if_pos rfl, if_true]


/-- C8 counterexample: in dry-run mode the transfer command still executes a
git command — the rev-list range query appears in the dry-run effect trace —
contradicting the claim that no git command is executed against the
repository. -/
theorem c8_dryrun_counterexample :
    Effect.runGit [("rev-list").toList, ("--reverse").toList,
        ("a").toList ++ '^' :: '.' :: '.' :: ("b").toList] ∈
      (transferRun dryRunEnv [] ("skip").toList false ("main").toList
        ("feature").toList ("a..b").toList ("msg").toList false false).1 := by
  decide

/-- C8 (amended): in dry-run mode no planned command is executed, no
operation record is written and no undo entry is pushed — the transfer
command's trace holds only prints, fingerprint computations and read-only
rev-list/log queries, while revert and restore traces hold only prints —
and each command returns successfully once its validation and resolution
stages succeed (shown for transfer under the skip duplicate policy). -/
theorem c8_dryrun_safe :
    (∀ (env : Env)
        (msgTemplate mode0 flagFrom flagTo flagRange flagMessage : GoString)
        (flagEdit flagAuto : Bool),
      ∀ eff ∈ (transferRun env msgTemplate mode0 false flagFrom flagTo
          flagRange flagMessage flagEdit flagAuto).1, dryRunSafe eff) ∧
    (∀ (env : Env) (flagOn flagRange flagMessage : GoString),
      ∀ eff ∈ (revertRun env false flagOn flagRange flagMessage).1,
        ∃ m, eff = Effect.print m) ∧
    (∀ (env : Env) (flagCommit flagBranch : GoString),
      ∀ eff ∈ (restoreRun env false flagCommit flagBranch).1,
        ∃ m, eff = Effect.print m) ∧
    (∀ (env : Env) (flagOn flagRange flagMessage startHash endHash : GoString),
      flagOn ≠ [] → flagRange ≠ [] →
      parseRangeSpec flagRange true = .ok (startHash, endHash) →
      (revertRun env false flagOn flagRange flagMessage).2 = .ok ()) ∧
    (∀ (env : Env) (flagCommit flagBranch : GoString),
      ¬(flagCommit = [] ∨ flagBranch = []) →
      (restoreRun env false flagCommit flagBranch).2 = .ok ()) ∧
    (∀ (env : Env) (msgTemplate flagFrom flagTo flagRange flagMessage
        startHash endHash : GoString) (commits dups : List Commit),
      ¬(flagFrom = [] ∨ flagTo = [] ∨ flagRange = []) →
      parseRangeSpec flagRange false = .ok (startHash, endHash) →
      (collectCommitsForRange env.gw startHash endHash).2 = .ok commits →
      (DetectDuplicates env.gw env.patchID flagTo commits).2 = .ok dups →
      (transferRun env msgTemplate ("skip").toList false flagFrom flagTo
        flagRange flagMessage false false).2 = .ok ()) :=
  ⟨transfer_dryrun_effects, revert_dryrun_effects, restore_dryrun_effects,
   revert_dryrun_ok, restore_dryrun_ok, transfer_dryrun_ok⟩

/-- C8 witness: the amended clauses evaluated in the concrete environment —
the read-only rev-list effect is dry-run safe, and the three commands return
success in dry-run mode on well-formed flags. -/
theorem c8_dryrun_safe_witness :
    dryRunSafe (Effect.runGit [("rev-list").toList, ("--reverse").toList,
      ("a").toList ++ '^' :: '.' :: '.' :: ("b").toList]) ∧
    (revertRun dryRunEnv false ("main").toList ("a..b").toList []).2 = .ok () ∧
    (restoreRun dryRunEnv false ("abc").toList ("backup").toList).2 = .ok () ∧
    (transferRun dryRunEnv [] ("skip").toList false ("main").toList
      ("feature").toList ("a..b").toList ("msg").toList false false).2 =
      .ok () :=
  ⟨c8_dryrun_safe.1 dryRunEnv [] ("skip").toList ("main").toList
      ("feature").toList ("a..b").toList ("msg").toList false false _
      (by decide),
   c8_dryrun_safe.2.2.2.1 dryRunEnv ("main").toList ("a..b").toList []
      ("a").toList ("b").toList (by decide) (by decide) (by decide),
   c8_dryrun_safe.2.2.2.2.1 dryRunEnv ("abc").toList ("backup").toList
      (by decide),
   c8_dryrun_safe.2.2.2.2.2 dryRunEnv [] ("main").toList ("feature").toList
      ("a..b").toList ("msg").toList ("a").toList ("b").toList
      [⟨("deadbeef").toList, [], [], [], []⟩]
      [⟨("deadbeef").toList, [], [], [], []⟩]
      (by decide) (by decide) (by decide) (by decide)⟩
